import Mathlib

/- Verification of the crash-consistent ingestion pipeline of
cosmos-scraper (src/cmd/cli): a shallow embedding of the activity-log
recovery validator (logHeight, log.go), the gap calculator (initBC,
worker.go), the per-request behaviour of the fetch worker (reqWorker) and
the persist worker (perWorker), and the orchestrator enqueue loop
(main.go), together with theorems about them. -/

namespace CosmosScraper

/-- Splits a character list at every occurrence of the one-character
delimiter, keeping empty chunks; models Go bytes.Split / strings.Split
with a one-character delimiter.  The result is always nonempty. -/
def splitOnChar (c : Char) : List Char → List (List Char)
  | [] => [[]]
  | x :: xs =>
    if x = c then [] :: splitOnChar c xs
    else
      match splitOnChar c xs with
      | [] => [[x]]
      | y :: ys => (x :: y) :: ys

/-- Value of a decimal digit character, none for any other character. -/
def digitVal (c : Char) : Option Nat :=
  if '0' ≤ c ∧ c ≤ '9' then some (c.toNat - 48) else none

/-- Folds decimal digits onto an accumulator, none at the first
non-digit. -/
def digitsVal : List Char → Nat → Option Nat
  | [], acc => some acc
  | c :: rest, acc =>
    match digitVal c with
    | none => none
    | some d => digitsVal rest (acc * 10 + d)

/-- Models Go strconv.Atoi: an optional sign followed by at least one
decimal digit (machine-word overflow is not modelled; heights are far
below it). -/
def atoi (s : String) : Option Int :=
  match s.data with
  | [] => none
  | c :: rest =>
    if c = '-' then
      if rest = [] then none else (digitsVal rest 0).map (fun n => -(Int.ofNat n))
    else if c = '+' then
      if rest = [] then none else (digitsVal rest 0).map Int.ofNat
    else (digitsVal (c :: rest) 0).map Int.ofNat

/-- Character of a decimal digit. -/
def digitChar (d : Nat) : Char := Char.ofNat (48 + d)

/-- Decimal printer worker, structurally recursive on a fuel bound (any
fuel above the argument yields the digits most significant first). -/
def natDecCore : Nat → Nat → List Char
  | 0, _ => []
  | fuel + 1, n =>
    if n < 10 then [digitChar n]
    else natDecCore fuel (n / 10) ++ [digitChar (n % 10)]

/-- Decimal representation of a natural number, as printed by the Go %d
verb. -/
def natDec (n : Nat) : List Char := natDecCore (n + 1) n

/-- Decimal representation of an integer, as printed by the Go %d verb. -/
def intDec (i : Int) : List Char :=
  if i < 0 then '-' :: natDec i.natAbs else natDec i.natAbs

/-- Models Go strings.HasPrefix on character lists. -/
def leadsWith : List Char → List Char → Bool
  | _, [] => true
  | [], _ :: _ => false
  | a :: as, b :: bs => a = b && leadsWith as bs

/-- Models Go strings.Contains on character lists. -/
def containsSub : List Char → List Char → Bool
  | [], sub => leadsWith [] sub
  | s@(_ :: rest), sub => leadsWith s sub || containsSub rest sub

/-- The three logger streams set up in log.go logSetup: bxs (processed
blocks), txs (processed transactions) and std (everything else). -/
inductive StreamTag where
  | bxs
  | txs
  | std
deriving DecidableEq, Repr

/-- Failure modes of logHeight.  indexOutOfRange models the Go runtime
panic raised when a recognised line has fewer fields than the code
indexes. -/
inductive LogErr where
  | parseFail (lineNo : Nat)
  | indexOutOfRange (lineNo : Nat)
  | outOfOrder (s : StreamTag) (checkpoint got want : Int)
  | crash (lastBxs lastTxs : Int)
deriving DecidableEq, Repr

/-- Scan of the split log lines (log.go lines 60-86) collecting block
heights (b) and transaction heights (t); the fourth field of a bxs: or
txs: line is its height, and a std: line whose fifth field is "invalid"
contributes its height to both collections. -/
def collectLines : List (List String) → Nat → List Int → List Int →
    Except LogErr (List Int × List Int)
  | [], _, b, t => Except.ok (b, t)
  | l :: rest, n, b, t =>
    let tag := l.headD ""
    if tag = "bxs:" then
      if l.length < 4 then Except.error (LogErr.indexOutOfRange (n + 1))
      else
        match atoi (l.getD 3 "") with
        | none => Except.error (LogErr.parseFail (n + 1))
        | some i => collectLines rest (n + 1) (b ++ [i]) t
    else if tag = "txs:" then
      if l.length < 4 then Except.error (LogErr.indexOutOfRange (n + 1))
      else
        match atoi (l.getD 3 "") with
        | none => Except.error (LogErr.parseFail (n + 1))
        | some i => collectLines rest (n + 1) b (t ++ [i])
    else if tag = "std:" then
      if 4 < l.length ∧ l.getD 4 "" = "invalid" then
        match atoi (l.getD 3 "") with
        | none => Except.error (LogErr.parseFail (n + 1))
        | some i => collectLines rest (n + 1) (b ++ [i]) (t ++ [i])
      else collectLines rest (n + 1) b t
    else collectLines rest (n + 1) b t

/-- Splits raw log-file content into lines and each line into
space-delimited fields, as logHeight does with bytes.Split and
strings.Split. -/
def logLines (content : String) : List (List String) :=
  (splitOnChar '\n' content.data).map fun l => (splitOnChar ' ' l).map (fun cs => String.mk cs)

/-- Height-collecting scan of logHeight over raw log content. -/
def parseLog (content : String) : Except LogErr (List Int × List Int) :=
  collectLines (logLines content) 0 [] []

/-- Ascending sort, modelling sort.IntSlice.Sort. -/
def sortAsc (xs : List Int) : List Int := List.insertionSort (fun a b => a ≤ b) xs

/-- Descending order, modelling sort.Sort(sort.Reverse(...)) applied to a
slice: the reverse of the ascending sort. -/
def sortDesc (xs : List Int) : List Int := (sortAsc xs).reverse

/-- The checkpoint-anchored in-order walk of log.go lines 94-111 (and the
identical lines 121-138 for transactions): i is the running index in the
sorted slice, c the index of the checkpoint value (-1 while unseen);
returns the first (got, want) deviation, or none if the walk passes. -/
def walkCheck (cp : Int) : List Int → Nat → Int → Option (Int × Int)
  | [], _, _ => none
  | v :: rest, i, c =>
    if v < cp then walkCheck cp rest (i + 1) c
    else if v = cp then walkCheck cp rest (i + 1) ((i : Nat) : Int)
    else if v ≠ cp + ((i : Int) - c) then some (v, cp + ((i : Int) - c))
    else walkCheck cp rest (i + 1) c

/-- Per-stream processing of log.go lines 88-113: the first in-order
deviation (when the stream is nonempty and 0 ≤ checkpoint < last, so the
walk runs) and the stream's last (maximal) height, 0 for an empty
stream. -/
def checkStream (xs : List Int) (cp : Int) : Option (Int × Int) × Int :=
  if xs = [] then (none, 0)
  else
    let s := sortAsc xs
    let last := s.getLastD 0
    if 0 ≤ cp ∧ cp < last then (walkCheck cp s 0 (-1), last) else (none, last)

/-- Default log file name (database.go), used to name the dump files. -/
def logFile : String := "cosmos-scraper.log"

/-- Models dumpIntSliceToFile (log.go lines 160-176): writes the slice to
the named file, one value per line; an empty slice writes nothing.  A
written file is represented as the pair of its name and contents. -/
def dumpIntSliceToFile (slice : List Int) (file : String) : List (String × List Int) :=
  if slice = [] then [] else [(file, slice)]

instance {e a : Type} [DecidableEq e] [DecidableEq a] : DecidableEq (Except e a) := fun x y =>
  match x, y with
  | Except.error u, Except.error v =>
    if h : u = v then isTrue (by rw [h]) else isFalse (by intro hc; injection hc; contradiction)
  | Except.error _, Except.ok _ => isFalse (by intro hc; injection hc)
  | Except.ok _, Except.error _ => isFalse (by intro hc; injection hc)
  | Except.ok u, Except.ok v =>
    if h : u = v then isTrue (by rw [h]) else isFalse (by intro hc; injection hc; contradiction)

/-- Result of logHeight: the returned (height, error) pair together with
the diagnostic dump files written on the way. -/
structure VOut where
  res : Except LogErr Int
  dumps : List (String × List Int)
deriving DecidableEq, Repr

/-- Validation part of logHeight (log.go lines 88-156) applied to the
collected block heights b and transaction heights t. -/
def validate (b t : List Int) (cp : Int) : VOut :=
  match checkStream b cp with
  | (some (g, w), _) =>
    ⟨Except.error (LogErr.outOfOrder StreamTag.bxs cp g w),
      dumpIntSliceToFile (sortDesc b) (logFile ++ ".bxs-dump")⟩
  | (none, lastBxs) =>
    match checkStream t cp with
    | (some (g, w), _) =>
      ⟨Except.error (LogErr.outOfOrder StreamTag.txs cp g w),
        dumpIntSliceToFile (sortDesc t) (logFile ++ ".txs-dump")⟩
    | (none, lastTxs) =>
      if (lastBxs > lastTxs ∧ cp ≥ lastBxs) ∨ (lastTxs > lastBxs ∧ cp ≥ lastTxs) then
        ⟨Except.ok (-1), []⟩
      else if lastBxs ≠ lastTxs then
        ⟨Except.error (LogErr.crash lastBxs lastTxs),
          dumpIntSliceToFile (sortDesc b) (logFile ++ ".bxs-dump") ++
            dumpIntSliceToFile (sortDesc t) (logFile ++ ".txs-dump")⟩
      else ⟨Except.ok lastBxs, []⟩

/-- logHeight (log.go lines 52-157) over raw log content: parse, then
validate against the checkpoint. -/
def logHeight (content : String) (checkpoint : Int) : VOut :=
  match parseLog content with
  | Except.error e => ⟨Except.error e, []⟩
  | Except.ok (b, t) => validate b t checkpoint

/-- Failure modes of initBC: a logHeight failure, or the resume height
being ahead of the source head. -/
inductive InitErr where
  | logErr (e : LogErr)
  | aheadOfSource
deriving DecidableEq, Repr

/-- Resume-height adjustment of initBC (worker.go lines 194-199): the
checkpoint overrides a smaller log height. -/
def effectiveResume (l cp : Int) : Int := if l < cp then cp else l

/-- Gap computation of initBC (worker.go lines 176-206) from the log
content, the checkpoint, and the source's current head height h: fails if
the effective resume height is ahead of the source, otherwise returns the
inclusive gap (tail, head) with tail the first unprocessed height. -/
def initBC (content : String) (cp h : Int) : Except InitErr (Int × Int) :=
  match (logHeight content cp).res with
  | Except.error e => Except.error (InitErr.logErr e)
  | Except.ok l =>
    let l2 := effectiveResume l cp
    if l2 > h then Except.error InitErr.aheadOfSource
    else Except.ok (l2 + 1, h)

/-- One record appended to the activity log: the stream it is written on,
the subject height (first token of the message) and the rest of the
message. -/
structure LogRec where
  stream : StreamTag
  height : Int
  note : String
deriving DecidableEq, Repr

/-- Which mongo collection a persist unit targets. -/
inductive CollTag where
  | bxsCol
  | txsCol
deriving DecidableEq, Repr

/-- A persist unit (struct persist, worker.go lines 33-38). -/
structure Persist where
  height : Int
  datatype : String
  raw : String
  col : CollTag
deriving DecidableEq, Repr

/-- Outcome of the block fetch for one height: either the raw payload, or
an error together with whether it is a context cancellation. -/
inductive BlockFetch where
  | ok (raw : String)
  | err (canceled : Bool) (msg : String)
deriving DecidableEq, Repr

/-- Outcome of the transactions fetch for one height: raw payload, the
nil result returned for zero transactions, or an error. -/
inductive TxFetch where
  | ok (raw : String)
  | empty
  | err
deriving DecidableEq, Repr

/-- What one reqWorker iteration produced: the persist units sent to
perChan, the log records appended, and whether it panicked. -/
structure ReqOut where
  units : List Persist
  recs : List LogRec
  panicked : Bool
deriving DecidableEq, Repr

/-- The unavailable-height pattern matched by reqWorker (worker.go line
51). -/
def unavailPattern (h : Int) : List Char :=
  "height ".data ++ intDec h ++ " is not available".data

/-- One iteration of reqWorker (worker.go lines 42-80) for the request at
height h, given the two fetch outcomes: a canceled block fetch is
skipped; an unavailable height is logged on the bxs and txs streams and
skipped; any other block-fetch error panics; on success the block unit is
sent, then empty transactions are logged as a txs skip, a transactions
error panics (after the block unit was already sent), and otherwise the
transactions unit is sent. -/
def reqStep (h : Int) (fb : BlockFetch) (ft : TxFetch) : ReqOut :=
  match fb with
  | BlockFetch.err canceled msg =>
    if canceled then ⟨[], [], false⟩
    else if containsSub msg.data (unavailPattern h) then
      ⟨[], [⟨StreamTag.bxs, h, "unavailable (skipping): " ++ msg⟩,
            ⟨StreamTag.txs, h, "unavailable (skipping): " ++ msg⟩], false⟩
    else ⟨[], [], true⟩
  | BlockFetch.ok raw =>
    match ft with
    | TxFetch.err => ⟨[⟨h, "block", raw, CollTag.bxsCol⟩], [], true⟩
    | TxFetch.empty =>
      ⟨[⟨h, "block", raw, CollTag.bxsCol⟩], [⟨StreamTag.txs, h, "empty (skipping)"⟩], false⟩
    | TxFetch.ok traw =>
      ⟨[⟨h, "block", raw, CollTag.bxsCol⟩, ⟨h, "transactions", traw, CollTag.txsCol⟩], [], false⟩

/-- Stream selection of perWorker (worker.go lines 93-99): none models
the fatal unrecognized-datatype branch. -/
def perStreamFor (datatype : String) : Option StreamTag :=
  if datatype = "block" then some StreamTag.bxs
  else if datatype = "transactions" then some StreamTag.txs
  else none

/-- Logger prefix word of each stream, as installed in logSetup (each is
followed by a space in the written line). -/
def streamTagWord : StreamTag → List Char
  | StreamTag.bxs => "bxs:".data
  | StreamTag.txs => "txs:".data
  | StreamTag.std => "std:".data

/-- The log line produced for a record: logger prefix, then the timestamp
written by log.LstdFlags with log.LUTC (its value never affects parsing,
so it is modelled as a constant date and time), then the message, whose
first token is the decimal height. -/
def renderRec (r : LogRec) : List Char :=
  streamTagWord r.stream ++ ' ' :: ("2022/01/01".data ++ ' ' ::
    ("00:00:00".data ++ ' ' :: (intDec r.height ++ ' ' :: r.note.data)))

/-- Appends rendered records to existing log content, one per line. -/
def appendRecs (content : String) (rs : List LogRec) : String :=
  String.mk (content.data ++ (rs.map (fun r => '\n' :: renderRec r)).flatten)

/-- State of the orchestrator loop of main.go lines 84-104: the next
height to enqueue, the believed head, and the heights enqueued so far. -/
structure Orch where
  tail : Int
  head : Int
  sent : List Int
deriving DecidableEq, Repr

/-- One step of the orchestrator loop: enqueue the tail height while
tail ≤ head (main.go lines 87-90), or re-poll the head while tail > head
(main.go lines 92-103; bcHeight may return any value). -/
inductive OrchStep : Orch → Orch → Prop
  | enqueue (s : Orch) (hle : s.tail ≤ s.head) :
      OrchStep s ⟨s.tail + 1, s.head, s.sent ++ [s.tail]⟩
  | poll (s : Orch) (newHead : Int) (hgt : s.head < s.tail) :
      OrchStep s ⟨s.tail, newHead, s.sent⟩

/-- Reachability in zero or more orchestrator steps. -/
def OrchReach : Orch → Orch → Prop := Relation.ReflTransGen OrchStep

/-- The list a, a+1, ..., a+n-1. -/
def intRange (a : Int) : Nat → List Int
  | 0 => []
  | n + 1 => a :: intRange (a + 1) n

/-- The collected heights of one stream contain two heights at or above
the checkpoint with a hole strictly between them. -/
def HasGapAbove (xs : List Int) (cp : Int) : Prop :=
  ∃ h1 ∈ xs, ∃ h2 ∈ xs, cp ≤ h1 ∧ h1 + 1 < h2 ∧ ∀ x ∈ xs, ¬(h1 < x ∧ x < h2)

instance (xs : List Int) (cp : Int) : Decidable (HasGapAbove xs cp) := by
  unfold HasGapAbove
  infer_instance

/-- The stream's records above the checkpoint are exactly the heights
cp+1, ..., cp+m, each recorded once; and the checkpoint itself is
recorded unless nothing below it is. -/
def CleanRun (xs : List Int) (cp : Int) (m : Nat) : Prop :=
  (∀ h : Int, cp < h → xs.count h = if h ≤ cp + m then 1 else 0) ∧
    (cp ∈ xs ∨ ∀ x ∈ xs, cp ≤ x)

/-! Lemmas about splitting character lists. -/

theorem splitOnChar_ne_nil (c : Char) (l : List Char) : splitOnChar c l ≠ [] := by
  cases l with
  | nil => simp [splitOnChar]
  | cons x xs =>
    simp only [splitOnChar]
    by_cases h : x = c
    · simp [h]
    · simp only [h, if_false]
      cases splitOnChar c xs <;> simp

theorem splitOnChar_no_sep (c : Char) (l : List Char) (h : ∀ x ∈ l, x ≠ c) :
    splitOnChar c l = [l] := by
  induction l with
  | nil => rfl
  | cons x xs ih =>
    have hx : x ≠ c := h x (by simp)
    have hxs : splitOnChar c xs = [xs] := ih (fun y hy => h y (by simp [hy]))
    simp [splitOnChar, hx, hxs]

theorem splitOnChar_cons (c x : Char) (xs : List Char) :
    splitOnChar c (x :: xs) =
      if x = c then [] :: splitOnChar c xs
      else
        match splitOnChar c xs with
        | [] => [[x]]
        | y :: ys => (x :: y) :: ys := rfl

theorem splitOnChar_append_sep (c : Char) (a b : List Char) :
    splitOnChar c (a ++ c :: b) = splitOnChar c a ++ splitOnChar c b := by
  induction a with
  | nil =>
    rw [List.nil_append, splitOnChar_cons]
    simp [splitOnChar]
  | cons x xs ih =>
    rw [List.cons_append, splitOnChar_cons, splitOnChar_cons, ih]
    by_cases h : x = c
    · simp [h]
    · simp only [h, if_false]
      cases hs : splitOnChar c xs with
      | nil => exact absurd hs (splitOnChar_ne_nil c xs)
      | cons y ys => simp [hs]

/-! Lemmas about the decimal printer and parser. -/

theorem digitChar_range (d : Nat) (h : d < 10) : '0' ≤ digitChar d ∧ digitChar d ≤ '9' := by
  interval_cases d <;> decide

theorem natDecCore_digits (fuel : Nat) : ∀ n, n < fuel → ∀ c ∈ natDecCore fuel n,
    '0' ≤ c ∧ c ≤ '9' := by
  induction fuel with
  | zero =>
    intro n hn
    omega
  | succ f ih =>
    intro n hn
    rw [natDecCore]
    by_cases h : n < 10
    · simp only [h, if_pos]
      intro c hc
      rw [List.mem_singleton] at hc
      subst hc
      exact digitChar_range n h
    · simp only [h, if_neg, not_false_iff]
      intro c hc
      rcases List.mem_append.mp hc with h1 | h2
      · have hdiv : n / 10 < f := by
          have := Nat.div_lt_self (show 0 < n by omega) (show 1 < 10 by omega)
          omega
        exact ih (n / 10) hdiv c h1
      · rw [List.mem_singleton] at h2
        subst h2
        exact digitChar_range (n % 10) (Nat.mod_lt n (by omega))

theorem natDec_digits (n : Nat) : ∀ c ∈ natDec n, '0' ≤ c ∧ c ≤ '9' :=
  natDecCore_digits (n + 1) n (by omega)

theorem natDec_ne_nil (n : Nat) : natDec n ≠ [] := by
  rw [natDec, natDecCore]
  by_cases h : n < 10
  · simp [h]
  · simp [h]

theorem digitVal_digitChar (d : Nat) (h : d < 10) : digitVal (digitChar d) = some d := by
  interval_cases d <;> decide

theorem digitsVal_append (a b : List Char) : ∀ acc,
    digitsVal (a ++ b) acc =
      match digitsVal a acc with
      | none => none
      | some m => digitsVal b m := by
  induction a with
  | nil => intro acc; rfl
  | cons x xs ih =>
    intro acc
    simp only [List.cons_append, digitsVal]
    cases digitVal x with
    | none => rfl
    | some d => exact ih (acc * 10 + d)

theorem digitsVal_natDecCore (fuel : Nat) : ∀ n, n < fuel →
    digitsVal (natDecCore fuel n) 0 = some n := by
  induction fuel with
  | zero =>
    intro n hn
    omega
  | succ f ih =>
    intro n hn
    rw [natDecCore]
    by_cases h : n < 10
    · simp [h, digitsVal, digitVal_digitChar n h]
    · simp only [h, if_neg, not_false_iff]
      rw [digitsVal_append]
      have hdiv : n / 10 < f := by
        have := Nat.div_lt_self (show 0 < n by omega) (show 1 < 10 by omega)
        omega
      rw [ih (n / 10) hdiv]
      simp only [digitsVal, digitVal_digitChar (n % 10) (Nat.mod_lt n (by omega))]
      have heq : n / 10 * 10 + n % 10 = n := by omega
      rw [heq]

theorem digitsVal_natDec (n : Nat) : digitsVal (natDec n) 0 = some n :=
  digitsVal_natDecCore (n + 1) n (by omega)

theorem atoi_mk_intDec (i : Int) : atoi (String.mk (intDec i)) = some i := by
  have hdata : (String.mk (intDec i)).data = intDec i := rfl
  by_cases hneg : i < 0
  · have h1 : intDec i = '-' :: natDec i.natAbs := by simp [intDec, hneg]
    have h2 : atoi (String.mk (intDec i)) =
        (digitsVal (natDec i.natAbs) 0).map (fun n => -(Int.ofNat n)) := by
      rw [atoi, hdata, h1]
      simp [natDec_ne_nil]
    rw [h2, digitsVal_natDec, Option.map_some']
    simp only [Int.ofNat_eq_natCast]
    congr 1
    omega
  · have h1 : intDec i = natDec i.natAbs := by simp [intDec, hneg]
    cases hnd : natDec i.natAbs with
    | nil => exact absurd hnd (natDec_ne_nil i.natAbs)
    | cons c rest =>
      have hc : '0' ≤ c ∧ c ≤ '9' := natDec_digits i.natAbs c (by rw [hnd]; simp)
      have hm : c ≠ '-' := by
        intro hcm
        subst hcm
        exact absurd hc.1 (by decide)
      have hp : c ≠ '+' := by
        intro hcp
        subst hcp
        exact absurd hc.1 (by decide)
      have h2 : atoi (String.mk (intDec i)) = (digitsVal (c :: rest) 0).map Int.ofNat := by
        rw [atoi, hdata, h1, hnd]
        simp [hm, hp]
      rw [h2, ← hnd, digitsVal_natDec, Option.map_some']
      simp only [Int.ofNat_eq_natCast]
      congr 1
      omega

theorem natDec_no_char (n : Nat) (c : Char) (hc : c < '0' ∨ '9' < c) : ∀ x ∈ natDec n, x ≠ c := by
  intro x hx he
  subst he
  have := natDec_digits n x hx
  rcases hc with h | h
  · exact absurd (lt_of_le_of_lt this.1 h) (lt_irrefl _)
  · exact absurd (lt_of_lt_of_le h this.2) (lt_irrefl _)

theorem intDec_no_char (i : Int) (c : Char) (hc : ('0' ≤ c → '9' < c) ∧ c ≠ '-') :
    ∀ x ∈ intDec i, x ≠ c := by
  intro x hx he
  subst he
  by_cases hneg : i < 0
  · simp only [intDec, hneg, if_pos] at hx
    rcases List.mem_cons.mp hx with h | h
    · exact hc.2 h
    · have := natDec_digits i.natAbs x h
      exact absurd (hc.1 this.1) (not_lt.mpr this.2)
  · simp only [intDec, hneg, if_neg, not_false_iff] at hx
    have := natDec_digits i.natAbs x hx
    exact absurd (hc.1 this.1) (not_lt.mpr this.2)

/-! Lemmas about the height-collecting scan. -/

theorem collectLines_shift (ls : List (List String)) : ∀ n b t,
    collectLines ls n b t =
      match collectLines ls n [] [] with
      | Except.error e => Except.error e
      | Except.ok (bb, tt) => Except.ok (b ++ bb, t ++ tt) := by
  induction ls with
  | nil =>
    intro n b t
    simp [collectLines]
  | cons l rest ih =>
    intro n b t
    simp only [collectLines]
    split
    · split
      · rfl
      · split
        · rfl
        · rename_i i hA
          rw [ih (n + 1) (b ++ [i]) t, ih (n + 1) ([] ++ [i]) []]
          cases collectLines rest (n + 1) [] [] with
          | error e => rfl
          | ok p =>
            cases p with
            | mk bb tt => simp
    · split
      · split
        · rfl
        · split
          · rfl
          · rename_i i hA
            rw [ih (n + 1) b (t ++ [i]), ih (n + 1) [] ([] ++ [i])]
            cases collectLines rest (n + 1) [] [] with
            | error e => rfl
            | ok p =>
              cases p with
              | mk bb tt => simp
      · split
        · split
          · split
            · rfl
            · rename_i i hA
              rw [ih (n + 1) (b ++ [i]) (t ++ [i]), ih (n + 1) ([] ++ [i]) ([] ++ [i])]
              cases collectLines rest (n + 1) [] [] with
              | error e => rfl
              | ok p =>
                cases p with
                | mk bb tt => simp
          · exact ih (n + 1) b t
        · exact ih (n + 1) b t

theorem collectLines_append (xs ys : List (List String)) : ∀ n b t,
    collectLines (xs ++ ys) n b t =
      match collectLines xs n b t with
      | Except.error e => Except.error e
      | Except.ok (bb, tt) => collectLines ys (n + xs.length) bb tt := by
  induction xs with
  | nil =>
    intro n b t
    simp [collectLines]
  | cons l rest ih =>
    intro n b t
    have harith : n + (l :: rest).length = n + 1 + rest.length := by
      simp only [List.length_cons]
      omega
    rw [List.cons_append, harith]
    simp only [collectLines]
    split
    · split
      · rfl
      · split
        · rfl
        · rename_i i hA
          exact ih (n + 1) (b ++ [i]) t
    · split
      · split
        · rfl
        · split
          · rfl
          · rename_i i hA
            exact ih (n + 1) b (t ++ [i])
      · split
        · split
          · split
            · rfl
            · rename_i i hA
              exact ih (n + 1) (b ++ [i]) (t ++ [i])
          · exact ih (n + 1) b t
        · exact ih (n + 1) b t

/-! Lemmas about sorting. -/

theorem sortAsc_sorted (xs : List Int) : List.Sorted (fun a b => a ≤ b) (sortAsc xs) :=
  List.sorted_insertionSort _ xs

theorem sortAsc_perm (xs : List Int) : List.Perm (sortAsc xs) xs :=
  List.perm_insertionSort _ xs

theorem mem_sortAsc (xs : List Int) (x : Int) : x ∈ sortAsc xs ↔ x ∈ xs :=
  (sortAsc_perm xs).mem_iff

theorem count_sortAsc (xs : List Int) (x : Int) : (sortAsc xs).count x = xs.count x :=
  (sortAsc_perm xs).count_eq x

theorem sortAsc_eq_nil (xs : List Int) : sortAsc xs = [] ↔ xs = [] := by
  constructor
  · intro h
    have := sortAsc_perm xs
    rw [h] at this
    exact (List.Perm.nil_eq this).symm
  · intro h
    subst h
    rfl

theorem getLastD_mem (l : List Int) (h : l ≠ []) (d : Int) : l.getLastD d ∈ l := by
  induction l with
  | nil => simp at h
  | cons a t ih =>
    cases t with
    | nil => simp
    | cons b u =>
      have := ih (by simp)
      simp only [List.getLastD_cons] at *
      right
      exact this

theorem getLastD_append_right (l1 l2 : List Int) (h : l2 ≠ []) (d : Int) :
    (l1 ++ l2).getLastD d = l2.getLastD d := by
  rw [List.getLastD_eq_getLast?, List.getLastD_eq_getLast?,
    List.getLast?_append_of_ne_nil l1 h]

theorem getLastD_default_irrel (l : List Int) (h : l ≠ []) (d1 d2 : Int) :
    l.getLastD d1 = l.getLastD d2 := by
  cases l with
  | nil => simp at h
  | cons a t => rw [List.getLastD_cons, List.getLastD_cons]

theorem sorted_le_getLastD (l : List Int) (hs : List.Sorted (fun a b => a ≤ b) l) (x : Int)
    (hx : x ∈ l) (d : Int) : x ≤ l.getLastD d := by
  induction l with
  | nil => cases hx
  | cons a rest ih =>
    rw [List.sorted_cons] at hs
    cases rest with
    | nil =>
      rw [List.mem_singleton] at hx
      subst hx
      simp
    | cons b u =>
      rw [List.getLastD_cons]
      rcases List.mem_cons.mp hx with h | h
      · subst h
        have hm : (b :: u).getLastD x ∈ b :: u := getLastD_mem _ (by simp) x
        exact hs.1 _ hm
      · have := ih hs.2 h
        rw [getLastD_default_irrel (b :: u) (by simp) a d]
        exact this

/-! Lemmas about intRange. -/

theorem length_intRange (a : Int) (n : Nat) : (intRange a n).length = n := by
  induction n generalizing a with
  | zero => rfl
  | succ m ih => simp [intRange, ih]

theorem mem_intRange (a : Int) (n : Nat) (x : Int) :
    x ∈ intRange a n ↔ a ≤ x ∧ x < a + n := by
  induction n generalizing a with
  | zero =>
    simp only [intRange, List.not_mem_nil, false_iff]
    omega
  | succ m ih =>
    simp only [intRange, List.mem_cons, ih]
    omega

theorem count_intRange (a : Int) (n : Nat) (x : Int) :
    (intRange a n).count x = if a ≤ x ∧ x < a + n then 1 else 0 := by
  induction n generalizing a with
  | zero =>
    simp only [intRange, List.count_nil]
    rw [if_neg (by omega)]
  | succ m ih =>
    have hcons : (intRange a (m + 1)).count x =
        (intRange (a + 1) m).count x + if a = x then 1 else 0 := by
      simp [intRange, List.count_cons]
    rw [hcons, ih (a + 1)]
    by_cases hx : a = x
    · subst hx
      rw [if_pos rfl, if_neg (by omega), if_pos (by push_cast; omega)]
    · rw [if_neg hx]
      by_cases hin : a + 1 ≤ x ∧ x < a + 1 + m
      · rw [if_pos hin, if_pos (by push_cast at hin ⊢; omega)]
      · rw [if_neg hin, if_neg (by push_cast at hin ⊢; omega)]

theorem sorted_intRange (a : Int) (n : Nat) :
    List.Sorted (fun x y => x ≤ y) (intRange a n) := by
  induction n generalizing a with
  | zero => simp [intRange]
  | succ m ih =>
    simp only [intRange, List.sorted_cons]
    refine ⟨fun b hb => ?_, ih (a + 1)⟩
    rw [mem_intRange] at hb
    omega

theorem getLastD_intRange (a : Int) (n : Nat) (h : n ≠ 0) (d : Int) :
    (intRange a n).getLastD d = a + n - 1 := by
  induction n generalizing a d with
  | zero => exact absurd rfl h
  | succ m ih =>
    cases m with
    | zero => simp [intRange]
    | succ k =>
      have : intRange a (k + 2) = a :: intRange (a + 1) (k + 1) := rfl
      rw [this, List.getLastD_cons, ih (a + 1) (by omega) a]
      push_cast
      ring

/-! Decomposition of a sorted list around the checkpoint value. -/

theorem sorted_split3 (cp : Int) (xs : List Int)
    (hs : List.Sorted (fun a b => a ≤ b) xs) :
    xs = xs.filter (fun v => decide (v < cp)) ++
      List.replicate (xs.count cp) cp ++ xs.filter (fun v => decide (cp < v)) := by
  induction xs with
  | nil => simp
  | cons x rest ih =>
    rw [List.sorted_cons] at hs
    have ihr := ih hs.2
    rcases lt_trichotomy x cp with hx | hx | hx
    · have f1 : (x :: rest).filter (fun v => decide (v < cp)) =
          x :: rest.filter (fun v => decide (v < cp)) := by
        simp [List.filter_cons, hx]
      have f2 : (x :: rest).count cp = rest.count cp := by
        have : cp ≠ x := by omega
        simp [List.count_cons, this]
      have f3 : (x :: rest).filter (fun v => decide (cp < v)) =
          rest.filter (fun v => decide (cp < v)) := by
        have : ¬cp < x := by omega
        simp [List.filter_cons, this]
      rw [f1, f2, f3, List.cons_append]
      exact congrArg (List.cons x) ihr
    · subst hx
      have hge : ∀ v ∈ rest, x ≤ v := hs.1
      have f1 : (x :: rest).filter (fun v => decide (v < x)) = [] := by
        rw [List.filter_eq_nil_iff]
        intro a ha
        rcases List.mem_cons.mp ha with h | h
        · subst h
          simp
        · have := hge a h
          simp
          omega
      have f2 : (x :: rest).count x = rest.count x + 1 := by
        simp [List.count_cons]
      have f3 : (x :: rest).filter (fun v => decide (x < v)) =
          rest.filter (fun v => decide (x < v)) := by
        have : ¬x < x := lt_irrefl x
        simp [List.filter_cons, this]
      have f1r : rest.filter (fun v => decide (v < x)) = [] := by
        rw [List.filter_eq_nil_iff]
        intro a ha
        have := hge a ha
        simp
        omega
      rw [f1, f2, f3, List.nil_append, List.replicate_succ, List.cons_append]
      refine congrArg (List.cons x) ?_
      rw [f1r, List.nil_append] at ihr
      exact ihr
    · have hgt : ∀ v ∈ x :: rest, cp < v := by
        intro v hv
        rcases List.mem_cons.mp hv with h | h
        · omega
        · have := hs.1 v h
          omega
      have f1 : (x :: rest).filter (fun v => decide (v < cp)) = [] := by
        rw [List.filter_eq_nil_iff]
        intro a ha
        have := hgt a ha
        simp
        omega
      have f2 : (x :: rest).count cp = 0 := by
        rw [List.count_eq_zero]
        intro hmem
        have := hgt cp hmem
        omega
      have f3 : (x :: rest).filter (fun v => decide (cp < v)) = x :: rest := by
        rw [List.filter_eq_self]
        intro a ha
        have := hgt a ha
        simp
        omega
      rw [f1, f2, f3]
      simp

/-! Lemmas about the in-order walk. -/

theorem walkCheck_cons (cp v : Int) (rest : List Int) (i : Nat) (c : Int) :
    walkCheck cp (v :: rest) i c =
      if v < cp then walkCheck cp rest (i + 1) c
      else if v = cp then walkCheck cp rest (i + 1) ((i : Nat) : Int)
      else if v ≠ cp + ((i : Int) - c) then some (v, cp + ((i : Int) - c))
      else walkCheck cp rest (i + 1) c := rfl

theorem walkCheck_skip_lt (cp : Int) (P : List Int) (hP : ∀ v ∈ P, v < cp) :
    ∀ R i c, walkCheck cp (P ++ R) i c = walkCheck cp R (i + P.length) c := by
  induction P with
  | nil =>
    intro R i c
    simp
  | cons x xs ih =>
    intro R i c
    have hx : x < cp := hP x (by simp)
    rw [List.cons_append, walkCheck_cons, if_pos hx,
      ih (fun v hv => hP v (by simp [hv])) R (i + 1) c]
    have : i + 1 + xs.length = i + (x :: xs).length := by
      simp
      omega
    rw [this]

theorem walkCheck_replicate (cp : Int) (q : Nat) (hq : q ≠ 0) :
    ∀ R i c, walkCheck cp (List.replicate q cp ++ R) i c =
      walkCheck cp R (i + q) ((i + q - 1 : Nat) : Int) := by
  induction q with
  | zero => exact absurd rfl hq
  | succ m ih =>
    intro R i c
    rw [List.replicate_succ, List.cons_append, walkCheck_cons, if_neg (lt_irrefl cp),
      if_pos rfl]
    cases m with
    | zero => simp
    | succ k =>
      rw [ih (by omega) R (i + 1) ((i : Nat) : Int)]
      have h1 : i + 1 + (k + 1) = i + (k + 1 + 1) := by omega
      rw [h1]

theorem walkCheck_run_pass (cp : Int) : ∀ (k : Nat) (i : Nat) (c : Int),
    0 < (i : Int) - c →
    walkCheck cp (intRange (cp + ((i : Int) - c)) k) i c = none := by
  intro k
  induction k with
  | zero =>
    intro i c h
    rfl
  | succ m ih =>
    intro i c h
    rw [intRange, walkCheck_cons, if_neg (by omega), if_neg (by omega),
      if_neg (by simp)]
    have harg : cp + ((i : Int) - c) + 1 = cp + (((i + 1 : Nat) : Int) - c) := by
      push_cast
      ring
    rw [harg]
    exact ih (i + 1) c (by push_cast; omega)

theorem walkCheck_run_forced (cp : Int) : ∀ (xs : List Int) (i : Nat) (c : Int),
    (∀ v ∈ xs, cp < v) → walkCheck cp xs i c = none →
    xs = intRange (cp + ((i : Int) - c)) xs.length := by
  intro xs
  induction xs with
  | nil =>
    intro i c h hw
    rfl
  | cons v rest ih =>
    intro i c hmem hw
    have hv : cp < v := hmem v (by simp)
    rw [walkCheck_cons, if_neg (by omega), if_neg (by omega)] at hw
    by_cases hne : v ≠ cp + ((i : Int) - c)
    · rw [if_pos hne] at hw
      exact absurd hw (by simp)
    · rw [if_neg hne] at hw
      push_neg at hne
      have hrest := ih (i + 1) c (fun u hu => hmem u (by simp [hu])) hw
      have harg : cp + (((i + 1 : Nat) : Int) - c) = cp + ((i : Int) - c) + 1 := by
        push_cast
        ring
      rw [harg] at hrest
      show v :: rest = (cp + ((i : Int) - c)) :: intRange (cp + ((i : Int) - c) + 1) rest.length
      rw [← hrest, ← hne]

/-! Characterisation of checkStream. -/

theorem filter_lt_mem (xs : List Int) (cp : Int) :
    ∀ v ∈ xs.filter (fun u => decide (u < cp)), v < cp := by
  intro v hv
  exact of_decide_eq_true (List.mem_filter.mp hv).2

theorem count_sortAsc_ne_zero_of_mem (xs : List Int) (x : Int) (h : x ∈ xs) :
    (sortAsc xs).count x ≠ 0 := by
  rw [count_sortAsc]
  intro h0
  rw [List.count_eq_zero] at h0
  exact h0 h

theorem checkStream_cleanRun (xs : List Int) (cp : Int) (m : Nat) (hcp : 0 ≤ cp)
    (hm : 1 ≤ m) (hclean : CleanRun xs cp m) :
    checkStream xs cp = (none, cp + m) := by
  have hmem1 : (cp + 1) ∈ xs := by
    have hcnt := hclean.1 (cp + 1) (by omega)
    rw [if_pos (by push_cast; omega)] at hcnt
    exact List.count_pos_iff.mp (by rw [hcnt]; omega)
  have hne : xs ≠ [] := by
    intro h
    rw [h] at hmem1
    cases hmem1
  have hsorted : List.Sorted (fun a b => a ≤ b) (sortAsc xs) := sortAsc_sorted xs
  have hcount : ∀ h : Int, ((sortAsc xs).filter (fun v => decide (cp < v))).count h =
      (intRange (cp + 1) m).count h := by
    intro h
    rw [count_intRange]
    by_cases hgt : cp < h
    · rw [List.count_filter (by simp [hgt]), count_sortAsc, hclean.1 h hgt]
      by_cases hle : h ≤ cp + m
      · rw [if_pos hle, if_pos (by push_cast; omega)]
      · rw [if_neg hle, if_neg (by push_cast; omega)]
    · have hnm : h ∉ (sortAsc xs).filter (fun v => decide (cp < v)) := by
        intro hmem
        exact hgt (of_decide_eq_true (List.mem_filter.mp hmem).2)
      rw [List.count_eq_zero.mpr hnm, if_neg (by push_cast; omega)]
  have hFgt : (sortAsc xs).filter (fun v => decide (cp < v)) = intRange (cp + 1) m :=
    List.eq_of_perm_of_sorted (List.perm_iff_count.mpr hcount)
      (List.Pairwise.sublist (List.filter_sublist _) hsorted) (sorted_intRange _ _)
  have hdec := sorted_split3 cp (sortAsc xs) hsorted
  rw [hFgt] at hdec
  have hrne : intRange (cp + 1) m ≠ [] := by
    cases m with
    | zero => omega
    | succ k => simp [intRange]
  have hlast : (sortAsc xs).getLastD 0 = cp + m := by
    conv_lhs => rw [hdec]
    rw [getLastD_append_right _ _ hrne, getLastD_intRange (cp + 1) m (by omega) 0]
    push_cast
    ring
  have hwalk : walkCheck cp (sortAsc xs) 0 (-1) = none := by
    have hassoc : sortAsc xs = (sortAsc xs).filter (fun v => decide (v < cp)) ++
        (List.replicate ((sortAsc xs).count cp) cp ++ intRange (cp + 1) m) := by
      conv_lhs => rw [hdec]
      rw [List.append_assoc]
    rw [hassoc, walkCheck_skip_lt cp _ (filter_lt_mem _ cp)]
    by_cases hq : (sortAsc xs).count cp = 0
    · have hL : (sortAsc xs).filter (fun v => decide (v < cp)) = [] := by
        rw [List.filter_eq_nil_iff]
        intro a ha
        have haxs : a ∈ xs := (mem_sortAsc xs a).mp ha
        have hge : cp ≤ a := by
          rcases hclean.2 with hin | hall
          · exact absurd hq (count_sortAsc_ne_zero_of_mem xs cp hin)
          · exact hall a haxs
        simp
        omega
      rw [hq, hL]
      simp only [List.replicate_zero, List.nil_append, List.length_nil, Nat.add_zero]
      have harg : cp + 1 = cp + (((0 : Nat) : Int) - (-1)) := by norm_num
      rw [harg]
      exact walkCheck_run_pass cp m 0 (-1) (by norm_num)
    · rw [walkCheck_replicate cp ((sortAsc xs).count cp) hq]
      have hpos : 0 < (sortAsc xs).count cp := Nat.pos_of_ne_zero hq
      generalize hgen : 0 + ((sortAsc xs).filter (fun v => decide (v < cp))).length +
        (sortAsc xs).count cp = i
      have h1i : 1 ≤ i := by omega
      have harg : cp + 1 = cp + ((i : Int) - ((i - 1 : Nat) : Int)) := by omega
      rw [harg]
      exact walkCheck_run_pass cp m i (((i - 1 : Nat) : Int)) (by omega)
  simp only [checkStream]
  rw [if_neg hne, if_pos ⟨hcp, by rw [hlast]; push_cast; omega⟩, hwalk, hlast]

theorem gap_not_in_range (xs : List Int) (cp s0 : Int) (k : Nat)
    (hF : (sortAsc xs).filter (fun u => decide (cp < u)) = intRange s0 k)
    (h1 h2 : Int) (hm1 : h1 ∈ xs) (hm2 : h2 ∈ xs) (hch1 : cp ≤ h1) (hlt : h1 + 1 < h2)
    (hnb : ∀ x ∈ xs, ¬(h1 < x ∧ x < h2))
    (hs0 : cp < s0) (hcpmem : h1 = cp → s0 = cp + 1) : False := by
  have hmemF : ∀ y : Int, cp < y → y ∈ xs → (s0 ≤ y ∧ y < s0 + k) := by
    intro y hy hmemy
    have hyr : y ∈ intRange s0 k := by
      rw [← hF]
      exact List.mem_filter.mpr ⟨(mem_sortAsc xs y).mpr hmemy, by simp [hy]⟩
    exact (mem_intRange s0 k y).mp hyr
  have hrangemem : ∀ y : Int, s0 ≤ y → y < s0 + k → y ∈ xs := by
    intro y hy1 hy2
    have hyr : y ∈ intRange s0 k := (mem_intRange s0 k y).mpr ⟨hy1, hy2⟩
    rw [← hF] at hyr
    exact (mem_sortAsc xs y).mp (List.mem_filter.mp hyr).1
  have hb2 := hmemF h2 (by omega) hm2
  rcases eq_or_lt_of_le hch1 with he | hl
  · have hs1 : s0 = cp + 1 := hcpmem he.symm
    have hmid : cp + 1 ∈ xs := hrangemem (cp + 1) (by omega) (by omega)
    exact hnb (cp + 1) hmid ⟨by omega, by omega⟩
  · have hb1 := hmemF h1 hl hm1
    have hmid : h1 + 1 ∈ xs := hrangemem (h1 + 1) (by omega) (by omega)
    exact hnb (h1 + 1) hmid ⟨by omega, by omega⟩

theorem checkStream_gap (xs : List Int) (cp : Int) (hcp : 0 ≤ cp)
    (hgap : HasGapAbove xs cp) :
    ∃ g w last, checkStream xs cp = (some (g, w), last) := by
  obtain ⟨h1, hm1, h2, hm2, hch1, hlt, hnb⟩ := hgap
  have hne : xs ≠ [] := by
    intro h
    rw [h] at hm2
    cases hm2
  have hsorted := sortAsc_sorted xs
  have hmem2s : h2 ∈ sortAsc xs := (mem_sortAsc xs h2).mpr hm2
  have hlastge : h2 ≤ (sortAsc xs).getLastD 0 := sorted_le_getLastD _ hsorted h2 hmem2s 0
  have hcond : 0 ≤ cp ∧ cp < (sortAsc xs).getLastD 0 := ⟨hcp, by omega⟩
  have hgtmem : ∀ v ∈ (sortAsc xs).filter (fun u => decide (cp < u)), cp < v := by
    intro v hv
    exact of_decide_eq_true (List.mem_filter.mp hv).2
  have hwalk : walkCheck cp (sortAsc xs) 0 (-1) ≠ none := by
    intro hnone
    have hdec := sorted_split3 cp (sortAsc xs) hsorted
    rw [List.append_assoc] at hdec
    rw [hdec, walkCheck_skip_lt cp _ (filter_lt_mem _ cp)] at hnone
    by_cases hq : (sortAsc xs).count cp = 0
    · rw [hq] at hnone
      simp only [List.replicate_zero, List.nil_append] at hnone
      have hforced := walkCheck_run_forced cp _ _ _ hgtmem hnone
      refine gap_not_in_range xs cp _ _ hforced h1 h2 hm1 hm2 hch1 hlt hnb ?_ ?_
      · have : (0 : Int) ≤ ((0 + ((sortAsc xs).filter (fun v => decide (v < cp))).length :
          Nat) : Int) := by positivity
        omega
      · intro hh1
        rw [← hh1] at hq
        exact absurd hq (by rw [hh1]; exact count_sortAsc_ne_zero_of_mem xs cp (hh1 ▸ hm1))
    · rw [walkCheck_replicate cp _ hq] at hnone
      have hforced := walkCheck_run_forced cp _ _ _ hgtmem hnone
      have hpos : 0 < (sortAsc xs).count cp := Nat.pos_of_ne_zero hq
      refine gap_not_in_range xs cp _ _ hforced h1 h2 hm1 hm2 hch1 hlt hnb ?_ ?_
      · generalize hgen : 0 + ((sortAsc xs).filter (fun v => decide (v < cp))).length +
          (sortAsc xs).count cp = i
        have h1i : 1 ≤ i := by omega
        omega
      · intro _
        generalize hgen : 0 + ((sortAsc xs).filter (fun v => decide (v < cp))).length +
          (sortAsc xs).count cp = i
        have h1i : 1 ≤ i := by omega
        omega
  cases hwo : walkCheck cp (sortAsc xs) 0 (-1) with
  | none => exact absurd hwo hwalk
  | some p =>
    cases p with
    | mk g w =>
      refine ⟨g, w, (sortAsc xs).getLastD 0, ?_⟩
      simp only [checkStream]
      rw [if_neg hne, if_pos hcond, hwo]

/-! Unfolding lemmas for validate and logHeight. -/

theorem validate_bxs_fail (b t : List Int) (cp g w last : Int)
    (hb : checkStream b cp = (some (g, w), last)) :
    validate b t cp = ⟨Except.error (LogErr.outOfOrder StreamTag.bxs cp g w),
      dumpIntSliceToFile (sortDesc b) (logFile ++ ".bxs-dump")⟩ := by
  simp only [validate, hb]

theorem validate_txs_fail (b t : List Int) (cp g w lastB lastT : Int)
    (hb : checkStream b cp = (none, lastB)) (ht : checkStream t cp = (some (g, w), lastT)) :
    validate b t cp = ⟨Except.error (LogErr.outOfOrder StreamTag.txs cp g w),
      dumpIntSliceToFile (sortDesc t) (logFile ++ ".txs-dump")⟩ := by
  simp only [validate, hb, ht]

theorem validate_both_pass (b t : List Int) (cp lastB lastT : Int)
    (hb : checkStream b cp = (none, lastB)) (ht : checkStream t cp = (none, lastT)) :
    validate b t cp =
      if (lastB > lastT ∧ cp ≥ lastB) ∨ (lastT > lastB ∧ cp ≥ lastT) then
        ⟨Except.ok (-1), []⟩
      else if lastB ≠ lastT then
        ⟨Except.error (LogErr.crash lastB lastT),
          dumpIntSliceToFile (sortDesc b) (logFile ++ ".bxs-dump") ++
            dumpIntSliceToFile (sortDesc t) (logFile ++ ".txs-dump")⟩
      else ⟨Except.ok lastB, []⟩ := by
  simp only [validate, hb, ht]

theorem validate_equal_last (b t : List Int) (cp lastB lastT : Int)
    (hb : checkStream b cp = (none, lastB)) (ht : checkStream t cp = (none, lastT))
    (heq : lastB = lastT) : validate b t cp = ⟨Except.ok lastB, []⟩ := by
  rw [validate_both_pass b t cp lastB lastT hb ht]
  subst heq
  rw [if_neg (by omega), if_neg (by simp)]

theorem validate_res_not_outOfOrder (b t : List Int) (cp lastB lastT : Int)
    (hb : checkStream b cp = (none, lastB)) (ht : checkStream t cp = (none, lastT)) :
    ∀ s c2 g w, (validate b t cp).res ≠ Except.error (LogErr.outOfOrder s c2 g w) := by
  intro s c2 g w
  rw [validate_both_pass b t cp lastB lastT hb ht]
  by_cases h1 : (lastB > lastT ∧ cp ≥ lastB) ∨ (lastT > lastB ∧ cp ≥ lastT)
  · rw [if_pos h1]
    simp
  · rw [if_neg h1]
    by_cases h2 : lastB ≠ lastT
    · rw [if_pos h2]
      simp
    · rw [if_neg h2]
      simp

theorem logHeight_parse_ok (content : String) (cp : Int) (b t : List Int)
    (hp : parseLog content = Except.ok (b, t)) :
    logHeight content cp = validate b t cp := by
  simp only [logHeight, hp]

theorem sortDesc_ne_nil (xs : List Int) (h : xs ≠ []) : sortDesc xs ≠ [] := by
  rw [sortDesc]
  intro hc
  rw [List.reverse_eq_nil_iff] at hc
  exact h ((sortAsc_eq_nil xs).mp hc)

theorem checkStream_neg_cp (xs : List Int) (cp : Int) (hcp : cp < 0) :
    checkStream xs cp = (none, if xs = [] then 0 else (sortAsc xs).getLastD 0) := by
  simp only [checkStream]
  by_cases h : xs = []
  · rw [if_pos h, if_pos h]
  · rw [if_neg h, if_neg h, if_neg (by omega)]

/-! Claim C1. -/

/-- Log content whose two streams both record heights 2, 5, 6 (heights
above checkpoint 4 form the contiguous run 5, 6 with equal maxima). -/
def c1log : String :=
  "bxs: 2022/01/01 00:00:00 2 -> a\nbxs: 2022/01/01 00:00:00 5 -> b\nbxs: 2022/01/01 00:00:00 6 -> c\ntxs: 2022/01/01 00:00:00 2 -> d\ntxs: 2022/01/01 00:00:00 5 -> e\ntxs: 2022/01/01 00:00:00 6 -> f"

/-- C1 counterexample: in c1log both streams' heights above checkpoint 4
are exactly the contiguous run [5, 6] with equal maxima 6, yet
logHeight(c1log, 4) does not return 6: the stray record at height 2
(with 4 itself unrecorded) shifts the walk's expected values, so it fails
with a blocks out-of-order error (got 5, want 6) and writes a dump.  This
refutes the claim as stated. -/
theorem C1_counterexample :
    parseLog c1log = Except.ok ([2, 5, 6], [2, 5, 6]) ∧
    [2, 5, 6].filter (fun v => decide (4 < v)) = [5, 6] ∧
    logHeight c1log 4 =
      ⟨Except.error (LogErr.outOfOrder StreamTag.bxs 4 5 6),
        [(logFile ++ ".bxs-dump", [6, 5, 2])]⟩ ∧
    (logHeight c1log 4).res ≠ Except.ok 6 := by decide

/-- C1 (amended): for every checkpoint C ≥ 0 and every log whose parse
succeeds, if in each stream the records above C are distinct and form
exactly the contiguous run C+1, ..., C+m (the same m ≥ 1 for both
streams, so the maxima agree), and each stream either records C itself or
has no record below C, then logHeight returns the common maximum C+m with
no error and writes no dump files. -/
theorem C1_amended (content : String) (cp : Int) (m : Nat) (b t : List Int)
    (hcp : 0 ≤ cp) (hm : 1 ≤ m)
    (hp : parseLog content = Except.ok (b, t))
    (hcb : CleanRun b cp m) (hct : CleanRun t cp m) :
    logHeight content cp = ⟨Except.ok (cp + m), []⟩ := by
  rw [logHeight_parse_ok content cp b t hp,
    validate_both_pass b t cp (cp + m) (cp + m) (checkStream_cleanRun b cp m hcp hm hcb)
      (checkStream_cleanRun t cp m hcp hm hct)]
  rw [if_neg (by omega), if_neg (by simp)]

theorem cleanRun_intRange (cp : Int) (m : Nat) : CleanRun (intRange (cp + 1) m) cp m := by
  constructor
  · intro h hh
    rw [count_intRange]
    by_cases hle : h ≤ cp + m
    · rw [if_pos (by push_cast; omega), if_pos hle]
    · rw [if_neg (by push_cast; omega), if_neg hle]
  · right
    intro x hx
    rw [mem_intRange] at hx
    omega

/-- Log content whose two streams both record heights 5, 6, 7. -/
def c5base : String :=
  "bxs: 2022/01/01 00:00:00 5 -> a\ntxs: 2022/01/01 00:00:00 5 -> b\nbxs: 2022/01/01 00:00:00 6 -> c\ntxs: 2022/01/01 00:00:00 6 -> d\nbxs: 2022/01/01 00:00:00 7 -> e\ntxs: 2022/01/01 00:00:00 7 -> f"

/-- Witness for C1 (amended) at checkpoint 4 on a log recording heights
5, 6, 7 on both streams. -/
theorem C1_witness : logHeight c5base 4 = ⟨Except.ok 7, []⟩ := by
  have hrun : CleanRun [5, 6, 7] 4 3 := by
    have he : intRange (4 + 1) 3 = [5, 6, 7] := by decide
    have hr := cleanRun_intRange 4 3
    rw [he] at hr
    exact hr
  have hres := C1_amended c5base 4 3 [5, 6, 7] [5, 6, 7] (by norm_num) (by norm_num)
    (by decide) hrun hrun
  rw [hres]
  norm_num

/-! Claim C2. -/

/-- Log content with blocks heights 2, 5, 6 and transactions heights
5, 6, 8: the gap (7 missing) is in the transactions stream only. -/
def c2log : String :=
  "bxs: 2022/01/01 00:00:00 2 -> a\nbxs: 2022/01/01 00:00:00 5 -> b\nbxs: 2022/01/01 00:00:00 6 -> c\ntxs: 2022/01/01 00:00:00 5 -> d\ntxs: 2022/01/01 00:00:00 6 -> e\ntxs: 2022/01/01 00:00:00 8 -> f"

/-- C2 counterexample: in c2log the Transactions stream has the gap above
checkpoint 4 (heights 5, 6, 8) and the Blocks stream has none, yet
logHeight fails with a BLOCKS out-of-order error and writes only the
blocks dump [6, 5, 2] — not an error for the gapped stream and not that
stream's height set — because the blocks walk (checked first) deviates on
the stray record at height 2.  This refutes the claim as stated. -/
theorem C2_counterexample :
    HasGapAbove [5, 6, 8] 4 ∧
    ¬HasGapAbove [2, 5, 6] 4 ∧
    parseLog c2log = Except.ok ([2, 5, 6], [5, 6, 8]) ∧
    logHeight c2log 4 =
      ⟨Except.error (LogErr.outOfOrder StreamTag.bxs 4 5 6),
        [(logFile ++ ".bxs-dump", [6, 5, 2])]⟩ := by decide

/-- C2 (amended): if a stream's collected heights have a gap at or above a
non-negative checkpoint, logHeight fails with an out-of-order error and
writes the failing stream's full height multiset, descending, as its dump
file; the failing stream is the Blocks stream whenever the gap is in the
Blocks stream, and the Transactions stream when the gap is there and the
Blocks check passes (the Blocks stream is checked first). -/
theorem C2_amended (content : String) (cp : Int) (b t : List Int) (hcp : 0 ≤ cp)
    (hp : parseLog content = Except.ok (b, t)) :
    (HasGapAbove b cp →
      ∃ g w, logHeight content cp =
        ⟨Except.error (LogErr.outOfOrder StreamTag.bxs cp g w),
          [(logFile ++ ".bxs-dump", sortDesc b)]⟩) ∧
    (∀ lastB, checkStream b cp = (none, lastB) → HasGapAbove t cp →
      ∃ g w, logHeight content cp =
        ⟨Except.error (LogErr.outOfOrder StreamTag.txs cp g w),
          [(logFile ++ ".txs-dump", sortDesc t)]⟩) := by
  constructor
  · intro hgap
    have hbne : b ≠ [] := by
      obtain ⟨h1, hm1, _⟩ := hgap
      intro hc
      rw [hc] at hm1
      cases hm1
    obtain ⟨g, w, last, hcs⟩ := checkStream_gap b cp hcp hgap
    refine ⟨g, w, ?_⟩
    rw [logHeight_parse_ok content cp b t hp, validate_bxs_fail b t cp g w last hcs,
      dumpIntSliceToFile, if_neg (sortDesc_ne_nil b hbne)]
  · intro lastB hpass hgap
    have htne : t ≠ [] := by
      obtain ⟨h1, hm1, _⟩ := hgap
      intro hc
      rw [hc] at hm1
      cases hm1
    obtain ⟨g, w, last, hcs⟩ := checkStream_gap t cp hcp hgap
    refine ⟨g, w, ?_⟩
    rw [logHeight_parse_ok content cp b t hp, validate_txs_fail b t cp g w lastB last hpass hcs,
      dumpIntSliceToFile, if_neg (sortDesc_ne_nil t htne)]

/-- Log content with the gapped heights 5, 6, 8 on both streams. -/
def c2gaplog : String :=
  "bxs: 2022/01/01 00:00:00 5 -> a\nbxs: 2022/01/01 00:00:00 6 -> b\nbxs: 2022/01/01 00:00:00 8 -> c\ntxs: 2022/01/01 00:00:00 5 -> d\ntxs: 2022/01/01 00:00:00 6 -> e\ntxs: 2022/01/01 00:00:00 8 -> f"

/-- Witness for C2 (amended): the gap 5, 6, 8 above checkpoint 4 in the
Blocks stream makes logHeight fail with a blocks out-of-order error and
the descending blocks dump. -/
theorem C2_witness :
    ∃ g w, logHeight c2gaplog 4 =
      ⟨Except.error (LogErr.outOfOrder StreamTag.bxs 4 g w),
        [(logFile ++ ".bxs-dump", sortDesc [5, 6, 8])]⟩ :=
  (C2_amended c2gaplog 4 [5, 6, 8] [5, 6, 8] (by norm_num) (by decide)).1 (by decide)

/-! Claim C3. -/

/-- C3: whenever the two streams' last heights differ and the per-stream
checks pass (so the decision point of log.go lines 142-156 is reached, as
described by the claim), then: if the checkpoint covers the larger last
height, logHeight returns the sentinel -1 with no error and no dumps, and
the caller initBC (modelled by effectiveResume) then uses the checkpoint
as the resume height; otherwise logHeight fails with the crash-detected
error naming both last heights and dumps both streams' height multisets
in descending order.  The checkpoint is taken non-negative as the spec's
data model prescribes. -/
theorem C3_crash_decision (content : String) (cp : Int) (b t : List Int)
    (lastB lastT : Int) (hcp : 0 ≤ cp)
    (hp : parseLog content = Except.ok (b, t))
    (hb : checkStream b cp = (none, lastB))
    (ht : checkStream t cp = (none, lastT))
    (hne : lastB ≠ lastT) :
    (max lastB lastT ≤ cp →
      logHeight content cp = ⟨Except.ok (-1), []⟩ ∧ effectiveResume (-1) cp = cp) ∧
    (cp < max lastB lastT →
      logHeight content cp =
        ⟨Except.error (LogErr.crash lastB lastT),
          dumpIntSliceToFile (sortDesc b) (logFile ++ ".bxs-dump") ++
            dumpIntSliceToFile (sortDesc t) (logFile ++ ".txs-dump")⟩) := by
  rw [logHeight_parse_ok content cp b t hp, validate_both_pass b t cp lastB lastT hb ht]
  constructor
  · intro hcov
    refine ⟨?_, ?_⟩
    · rw [if_pos (by omega)]
    · rw [effectiveResume, if_pos (by omega)]
  · intro hlt
    rw [if_neg (by omega), if_pos hne]

/-- Log content recording height 10 on the blocks stream only and height
8 on the transactions stream only. -/
def c3log : String := "bxs: 2022/01/01 00:00:00 10 -> a\ntxs: 2022/01/01 00:00:00 8 -> b"

/-- Witness for C3 with last heights 10 and 8 covered by checkpoint 10. -/
theorem C3_witness :
    logHeight c3log 10 = ⟨Except.ok (-1), []⟩ ∧ effectiveResume (-1) 10 = 10 :=
  (C3_crash_decision c3log 10 [10] [8] 10 8 (by norm_num) (by decide) (by decide)
    (by decide) (by decide)).1 (by norm_num)

/-! Claim C4. -/

/-- Log content recording a single block record at height 5 and no
transaction records. -/
def c4log : String := "bxs: 2022/01/01 00:00:00 5 -> a"

/-- C4 counterexample: with a negative checkpoint, logHeight on a log with
a block record at height 5 and no transaction records still fails (with
the crash-detected error 5 vs 0, dumping the blocks heights), refuting
"performs no validation at all and returns without error". -/
theorem C4_counterexample :
    logHeight c4log (-1) =
      ⟨Except.error (LogErr.crash 5 0), [(logFile ++ ".bxs-dump", [5])]⟩ := by decide

/-- C4 (amended): a negative checkpoint disables the per-stream in-order
validation — logHeight can then never fail with an out-of-order error —
and when the two streams' last heights agree it returns that height with
no error and no dumps; but parsing and the cross-stream last-height
comparison still run, so logHeight can still fail (see the
counterexample). -/
theorem C4_amended (content : String) (cp : Int) (b t : List Int)
    (hcp : cp < 0) (hp : parseLog content = Except.ok (b, t)) :
    (∀ s c2 g w, (logHeight content cp).res ≠ Except.error (LogErr.outOfOrder s c2 g w)) ∧
    ((checkStream b cp).2 = (checkStream t cp).2 →
      logHeight content cp = ⟨Except.ok ((checkStream b cp).2), []⟩) := by
  have hb := checkStream_neg_cp b cp hcp
  have ht := checkStream_neg_cp t cp hcp
  constructor
  · intro s c2 g w
    rw [logHeight_parse_ok content cp b t hp]
    exact validate_res_not_outOfOrder b t cp _ _ hb ht s c2 g w
  · intro heq
    rw [hb, ht] at heq
    dsimp only at heq
    rw [logHeight_parse_ok content cp b t hp, hb]
    dsimp only
    exact validate_equal_last b t cp _ _ hb ht heq

/-- Witness for C4 (amended) on a log recording heights 5, 6, 7 on both
streams with checkpoint -1. -/
theorem C4_witness : logHeight c5base (-1) = ⟨Except.ok 7, []⟩ := by
  have hres := (C4_amended c5base (-1) [5, 6, 7] [5, 6, 7] (by norm_num) (by decide)).2
    (by decide)
  have he : (checkStream [5, 6, 7] (-1)).2 = 7 := by decide
  rw [he] at hres
  exact hres

/-! Rendering records to log lines and parsing them back. -/

theorem intDec_no_space (i : Int) : ∀ x ∈ intDec i, x ≠ ' ' :=
  intDec_no_char i ' ' (by decide)

theorem intDec_no_newline (i : Int) : ∀ x ∈ intDec i, x ≠ '\n' :=
  intDec_no_char i '\n' (by decide)

theorem streamTagWord_no_space (s : StreamTag) : ∀ x ∈ streamTagWord s, x ≠ ' ' := by
  cases s <;> decide

theorem streamTagWord_no_newline (s : StreamTag) : ∀ x ∈ streamTagWord s, x ≠ '\n' := by
  cases s <;> decide

theorem splitOnChar_renderRec (r : LogRec) :
    splitOnChar ' ' (renderRec r) =
      streamTagWord r.stream :: "2022/01/01".data :: "00:00:00".data :: intDec r.height ::
        splitOnChar ' ' r.note.data := by
  rw [renderRec, splitOnChar_append_sep ' ' (streamTagWord r.stream),
    splitOnChar_no_sep ' ' (streamTagWord r.stream) (streamTagWord_no_space r.stream),
    splitOnChar_append_sep ' ' ("2022/01/01".data),
    splitOnChar_no_sep ' ' ("2022/01/01".data) (by decide),
    splitOnChar_append_sep ' ' ("00:00:00".data),
    splitOnChar_no_sep ' ' ("00:00:00".data) (by decide),
    splitOnChar_append_sep ' ' (intDec r.height),
    splitOnChar_no_sep ' ' (intDec r.height) (intDec_no_space r.height)]
  rfl

theorem renderRec_no_newline (r : LogRec) (hn : ∀ x ∈ r.note.data, x ≠ '\n') :
    ∀ x ∈ renderRec r, x ≠ '\n' := by
  intro x hx he
  subst he
  rw [renderRec] at hx
  rcases List.mem_append.mp hx with h | h
  · exact streamTagWord_no_newline r.stream '\n' h rfl
  · rcases List.mem_cons.mp h with h | h
    · exact absurd h (by decide)
    · rcases List.mem_append.mp h with h | h
      · exact absurd h (by decide)
      · rcases List.mem_cons.mp h with h | h
        · exact absurd h (by decide)
        · rcases List.mem_append.mp h with h | h
          · exact absurd h (by decide)
          · rcases List.mem_cons.mp h with h | h
            · exact absurd h (by decide)
            · rcases List.mem_append.mp h with h | h
              · exact intDec_no_newline r.height '\n' h rfl
              · rcases List.mem_cons.mp h with h | h
                · exact absurd h (by decide)
                · exact hn '\n' h rfl

theorem logLines_appendRecs (content : String) (rs : List LogRec)
    (hnl : ∀ r ∈ rs, ∀ x ∈ r.note.data, x ≠ '\n') :
    logLines (appendRecs content rs) =
      logLines content ++ rs.map (fun r => (splitOnChar ' ' (renderRec r)).map String.mk) := by
  induction rs generalizing content with
  | nil => simp [appendRecs, logLines]
  | cons r rest ih =>
    have hstep : appendRecs content (r :: rest) =
        appendRecs (String.mk (content.data ++ '\n' :: renderRec r)) rest := by
      simp [appendRecs, List.append_assoc]
    have hline : logLines (String.mk (content.data ++ '\n' :: renderRec r)) =
        logLines content ++ [(splitOnChar ' ' (renderRec r)).map String.mk] := by
      show ((splitOnChar '\n' (content.data ++ '\n' :: renderRec r)).map
        (fun l => (splitOnChar ' ' l).map String.mk)) = _
      rw [splitOnChar_append_sep '\n' content.data,
        splitOnChar_no_sep '\n' (renderRec r)
          (renderRec_no_newline r (hnl r (List.mem_cons_self r rest))),
        List.map_append]
      rfl
    rw [hstep, ih (String.mk (content.data ++ '\n' :: renderRec r))
      (fun r2 h2 => hnl r2 (List.mem_cons.mpr (Or.inr h2))), hline, List.append_assoc]
    rfl

theorem collectLines_step_bxs (w : List String) (rest : List (List String)) (n : Nat)
    (b t : List Int) (i : Int) (h0 : w.headD "" = "bxs:") (h4 : ¬w.length < 4)
    (hA : atoi (w.getD 3 "") = some i) :
    collectLines (w :: rest) n b t = collectLines rest (n + 1) (b ++ [i]) t := by
  simp only [collectLines, h0]
  rw [if_pos trivial, if_neg h4, hA]

theorem collectLines_step_txs (w : List String) (rest : List (List String)) (n : Nat)
    (b t : List Int) (i : Int) (h0 : w.headD "" = "txs:") (h4 : ¬w.length < 4)
    (hA : atoi (w.getD 3 "") = some i) :
    collectLines (w :: rest) n b t = collectLines rest (n + 1) b (t ++ [i]) := by
  simp only [collectLines, h0]
  rw [if_neg (by decide), if_pos trivial, if_neg h4, hA]

theorem renderTokens_bxs (hgt : Int) (note : String) :
    (splitOnChar ' ' (renderRec ⟨StreamTag.bxs, hgt, note⟩)).map String.mk =
      "bxs:" :: "2022/01/01" :: "00:00:00" :: String.mk (intDec hgt) ::
        (splitOnChar ' ' note.data).map String.mk := by
  rw [splitOnChar_renderRec]
  simp only [List.map_cons]
  rfl

theorem renderTokens_txs (hgt : Int) (note : String) :
    (splitOnChar ' ' (renderRec ⟨StreamTag.txs, hgt, note⟩)).map String.mk =
      "txs:" :: "2022/01/01" :: "00:00:00" :: String.mk (intDec hgt) ::
        (splitOnChar ' ' note.data).map String.mk := by
  rw [splitOnChar_renderRec]
  simp only [List.map_cons]
  rfl

theorem parseLog_append_two (content : String) (b t : List Int) (hgt : Int)
    (note1 note2 : String)
    (hn1 : ∀ x ∈ note1.data, x ≠ '\n') (hn2 : ∀ x ∈ note2.data, x ≠ '\n')
    (hp : parseLog content = Except.ok (b, t)) :
    parseLog (appendRecs content
        [⟨StreamTag.bxs, hgt, note1⟩, ⟨StreamTag.txs, hgt, note2⟩]) =
      Except.ok (b ++ [hgt], t ++ [hgt]) := by
  have hnl : ∀ r ∈ [(⟨StreamTag.bxs, hgt, note1⟩ : LogRec), ⟨StreamTag.txs, hgt, note2⟩],
      ∀ x ∈ r.note.data, x ≠ '\n' := by
    intro r2 h2
    rcases List.mem_cons.mp h2 with h | h
    · subst h
      exact hn1
    · rcases List.mem_cons.mp h with h | h
      · subst h
        exact hn2
      · cases h
  rw [parseLog] at hp
  rw [parseLog, logLines_appendRecs content _ hnl, collectLines_append, hp]
  show collectLines _ (0 + (logLines content).length) b t = _
  simp only [List.map_cons, List.map_nil]
  rw [renderTokens_bxs hgt note1, renderTokens_txs hgt note2]
  rw [collectLines_step_bxs ("bxs:" :: "2022/01/01" :: "00:00:00" :: String.mk (intDec hgt) ::
    (splitOnChar ' ' note1.data).map String.mk) _ _ _ _ hgt rfl (by simp) (atoi_mk_intDec hgt)]
  rw [collectLines_step_txs ("txs:" :: "2022/01/01" :: "00:00:00" :: String.mk (intDec hgt) ::
    (splitOnChar ' ' note2.data).map String.mk) _ _ _ _ hgt rfl (by simp) (atoi_mk_intDec hgt)]
  rfl

theorem getLastD_sortAsc_subset (xs ys : List Int) (hx : xs ≠ []) (hy : ys ≠ [])
    (hxy : ∀ a ∈ xs, a ∈ ys) (hyx : ∀ a ∈ ys, a ∈ xs) :
    (sortAsc xs).getLastD 0 = (sortAsc ys).getLastD 0 := by
  have hx2 : sortAsc xs ≠ [] := by
    rw [Ne, sortAsc_eq_nil]
    exact hx
  have hy2 : sortAsc ys ≠ [] := by
    rw [Ne, sortAsc_eq_nil]
    exact hy
  have m1 : (sortAsc xs).getLastD 0 ∈ ys := hxy _ ((mem_sortAsc xs _).mp (getLastD_mem _ hx2 0))
  have m2 : (sortAsc ys).getLastD 0 ∈ xs := hyx _ ((mem_sortAsc ys _).mp (getLastD_mem _ hy2 0))
  have le1 : (sortAsc xs).getLastD 0 ≤ (sortAsc ys).getLastD 0 :=
    sorted_le_getLastD _ (sortAsc_sorted ys) _ ((mem_sortAsc ys _).mpr m1) 0
  have le2 : (sortAsc ys).getLastD 0 ≤ (sortAsc xs).getLastD 0 :=
    sorted_le_getLastD _ (sortAsc_sorted xs) _ ((mem_sortAsc xs _).mpr m2) 0
  omega

/-! Claim C5. -/

/-- The c5base log with a duplicate pair of records for height 6 appended,
as a replayed height would produce. -/
def c5dup : String :=
  c5base ++ "\nbxs: 2022/01/01 00:00:00 6 -> g\ntxs: 2022/01/01 00:00:00 6 -> h"

/-- C5 counterexample: logHeight on a log with heights 5, 6, 7 on both
streams succeeds at checkpoint 4 with resume height 7, but after appending
a duplicate pair of records for the already fully recorded height 6,
re-running with the same checkpoint fails out-of-order (the duplicate
breaks the walk's consecutive-heights expectation) instead of returning
the same resume height. -/
theorem C5_counterexample :
    (logHeight c5base 4).res = Except.ok 7 ∧
    parseLog c5dup = Except.ok ([5, 6, 7, 6], [5, 6, 7, 6]) ∧
    (logHeight c5dup 4).res = Except.error (LogErr.outOfOrder StreamTag.bxs 4 6 7) := by
  decide

/-- C5 (amended): reprocessing a height leaves the recovery result
unchanged only when the per-stream validation is skipped; in particular,
for every log, negative checkpoint, and height already recorded on both
streams, appending one further block record and one further transaction
record for that height (a replay) yields exactly the same logHeight
result.  With 0 ≤ checkpoint < a stream's maximum, duplicating a height
above the checkpoint makes re-validation fail out-of-order instead (see
the counterexample). -/
theorem C5_amended (content : String) (cp : Int) (b t : List Int) (hgt : Int)
    (note1 note2 : String)
    (hn1 : ∀ x ∈ note1.data, x ≠ '\n') (hn2 : ∀ x ∈ note2.data, x ≠ '\n')
    (hcp : cp < 0)
    (hp : parseLog content = Except.ok (b, t))
    (hhb : hgt ∈ b) (hht : hgt ∈ t) :
    (logHeight (appendRecs content
        [⟨StreamTag.bxs, hgt, note1⟩, ⟨StreamTag.txs, hgt, note2⟩]) cp).res =
      (logHeight content cp).res := by
  have hp2 := parseLog_append_two content b t hgt note1 note2 hn1 hn2 hp
  have hbne : b ≠ [] := by
    intro hc
    rw [hc] at hhb
    cases hhb
  have htne : t ≠ [] := by
    intro hc
    rw [hc] at hht
    cases hht
  have hlb : (sortAsc (b ++ [hgt])).getLastD 0 = (sortAsc b).getLastD 0 :=
    getLastD_sortAsc_subset (b ++ [hgt]) b (by simp) hbne
      (by
        intro a ha
        rcases List.mem_append.mp ha with h | h
        · exact h
        · rw [List.mem_singleton] at h
          rw [h]
          exact hhb)
      (fun a ha => List.mem_append.mpr (Or.inl ha))
  have hlt : (sortAsc (t ++ [hgt])).getLastD 0 = (sortAsc t).getLastD 0 :=
    getLastD_sortAsc_subset (t ++ [hgt]) t (by simp) htne
      (by
        intro a ha
        rcases List.mem_append.mp ha with h | h
        · exact h
        · rw [List.mem_singleton] at h
          rw [h]
          exact hht)
      (fun a ha => List.mem_append.mpr (Or.inl ha))
  have hcb2 := checkStream_neg_cp (b ++ [hgt]) cp hcp
  have hct2 := checkStream_neg_cp (t ++ [hgt]) cp hcp
  have hcb := checkStream_neg_cp b cp hcp
  have hct := checkStream_neg_cp t cp hcp
  rw [if_neg (by simp), hlb] at hcb2
  rw [if_neg (by simp), hlt] at hct2
  rw [if_neg hbne] at hcb
  rw [if_neg htne] at hct
  rw [logHeight_parse_ok _ cp _ _ hp2, logHeight_parse_ok content cp b t hp,
    validate_both_pass _ _ cp _ _ hcb2 hct2, validate_both_pass b t cp _ _ hcb hct]
  by_cases h1 : ((sortAsc b).getLastD 0 > (sortAsc t).getLastD 0 ∧
      cp ≥ (sortAsc b).getLastD 0) ∨
    ((sortAsc t).getLastD 0 > (sortAsc b).getLastD 0 ∧ cp ≥ (sortAsc t).getLastD 0)
  · rw [if_pos h1, if_pos h1]
  · rw [if_neg h1, if_neg h1]
    by_cases h2 : (sortAsc b).getLastD 0 ≠ (sortAsc t).getLastD 0
    · rw [if_pos h2, if_pos h2]
    · rw [if_neg h2, if_neg h2]

/-- Witness for C5 (amended): replaying height 6 on the 5, 6, 7 log with
checkpoint -1 leaves the result unchanged. -/
theorem C5_witness :
    (logHeight (appendRecs c5base
        [⟨StreamTag.bxs, 6, "-> g"⟩, ⟨StreamTag.txs, 6, "-> h"⟩]) (-1)).res =
      (logHeight c5base (-1)).res :=
  C5_amended c5base (-1) [5, 6, 7] [5, 6, 7] 6 "-> g" "-> h" (by decide) (by decide)
    (by norm_num) (by decide) (by decide) (by decide)

/-! Claim C6. -/

/-- An example unavailable-height error message returned by the source at
height 5, as in worker.go's comment. -/
def unavailMsg5 : String :=
  "400 Bad Request: height 5 is not available, lowest height is 1995900: invalid request"

/-- C6 counterexample: for an unavailable height the fetch worker writes
its two records on the Blocks and Transactions streams — not only on the
Other/standard stream — and marks them "unavailable (skipping)", not
"invalid"; no persist unit is produced. -/
theorem C6_counterexample :
    (reqStep 5 (BlockFetch.err false unavailMsg5) TxFetch.empty).units = [] ∧
    (reqStep 5 (BlockFetch.err false unavailMsg5) TxFetch.empty).recs.map
      (fun r => r.stream) = [StreamTag.bxs, StreamTag.txs] ∧
    ¬(∀ r ∈ (reqStep 5 (BlockFetch.err false unavailMsg5) TxFetch.empty).recs,
      r.stream = StreamTag.std) := by decide

/-- C6 (amended): when the source reports the requested height as
unavailable (and the error is not a cancellation), the fetch worker
records that height on BOTH the Blocks and Transactions streams with an
"unavailable (skipping)" marker, enqueues no persist unit, does not panic
(it moves on to the next request), and on read-back those records make
the height count toward both streams' collected height sets. -/
theorem C6_amended (hgt : Int) (msg : String) (content : String) (b t : List Int)
    (ft : TxFetch)
    (hmsg : containsSub msg.data (unavailPattern hgt) = true)
    (hnl : ∀ x ∈ msg.data, x ≠ '\n')
    (hp : parseLog content = Except.ok (b, t)) :
    (reqStep hgt (BlockFetch.err false msg) ft).units = [] ∧
    (reqStep hgt (BlockFetch.err false msg) ft).panicked = false ∧
    (reqStep hgt (BlockFetch.err false msg) ft).recs =
      [⟨StreamTag.bxs, hgt, "unavailable (skipping): " ++ msg⟩,
       ⟨StreamTag.txs, hgt, "unavailable (skipping): " ++ msg⟩] ∧
    parseLog (appendRecs content (reqStep hgt (BlockFetch.err false msg) ft).recs) =
      Except.ok (b ++ [hgt], t ++ [hgt]) := by
  have hnote : ∀ x ∈ ("unavailable (skipping): " ++ msg).data, x ≠ '\n' := by
    intro x hx
    rw [String.data_append] at hx
    rcases List.mem_append.mp hx with h | h
    · intro he
      subst he
      exact absurd h (by decide)
    · exact hnl x h
  have hstep : reqStep hgt (BlockFetch.err false msg) ft =
      ⟨[], [⟨StreamTag.bxs, hgt, "unavailable (skipping): " ++ msg⟩,
            ⟨StreamTag.txs, hgt, "unavailable (skipping): " ++ msg⟩], false⟩ := by
    rw [reqStep]
    simp [hmsg]
  rw [hstep]
  exact ⟨rfl, rfl, rfl,
    parseLog_append_two content b t hgt _ _ hnote hnote hp⟩

/-- Witness for C6 (amended) at height 5 on the 5, 6, 7 log. -/
theorem C6_witness :
    parseLog (appendRecs c5base
        (reqStep 5 (BlockFetch.err false unavailMsg5) TxFetch.empty).recs) =
      Except.ok ([5, 6, 7, 5], [5, 6, 7, 5]) := by
  have hres := (C6_amended 5 unavailMsg5 c5base [5, 6, 7] [5, 6, 7] TxFetch.empty
    (by decide) (by decide) (by decide)).2.2.2
  rw [show ([5, 6, 7] : List Int) ++ [5] = [5, 6, 7, 5] from rfl] at hres
  exact hres

/-! Claim C7. -/

/-- C7 counterexample: a retrievable height with empty transactions
produces exactly ONE persist unit (the block unit), refuting "zero or two
units are produced per height". -/
theorem C7_counterexample :
    (reqStep 9 (BlockFetch.ok "B") TxFetch.empty).units =
      [⟨9, "block", "B", CollTag.bxsCol⟩] ∧
    (reqStep 9 (BlockFetch.ok "B") TxFetch.empty).units.length = 1 := by decide

/-- C7 (amended): per height zero, one, or two persist units are produced:
zero when the block fetch is canceled, fails fatally, or the height is
unavailable (then together with one skip record on EACH of the two
streams, not a single std record); one — the block unit — when the
transactions are empty (with a txs skip record) or the transactions fetch
fails after the block unit was already sent; and exactly two (one Block,
one Transactions) otherwise. -/
theorem C7_amended (hgt : Int) (fb : BlockFetch) (ft : TxFetch) :
    ((reqStep hgt fb ft).units.length = 0 ∨ (reqStep hgt fb ft).units.length = 1 ∨
      (reqStep hgt fb ft).units.length = 2) ∧
    (∀ canceled msg, fb = BlockFetch.err canceled msg → (reqStep hgt fb ft).units = []) ∧
    (∀ raw, fb = BlockFetch.ok raw → ft = TxFetch.empty →
      (reqStep hgt fb ft).units = [⟨hgt, "block", raw, CollTag.bxsCol⟩] ∧
      (reqStep hgt fb ft).recs = [⟨StreamTag.txs, hgt, "empty (skipping)"⟩]) ∧
    (∀ raw, fb = BlockFetch.ok raw → ft = TxFetch.err →
      (reqStep hgt fb ft).units = [⟨hgt, "block", raw, CollTag.bxsCol⟩] ∧
      (reqStep hgt fb ft).panicked = true) ∧
    (∀ raw traw, fb = BlockFetch.ok raw → ft = TxFetch.ok traw →
      (reqStep hgt fb ft).units =
        [⟨hgt, "block", raw, CollTag.bxsCol⟩, ⟨hgt, "transactions", traw, CollTag.txsCol⟩]) := by
  refine ⟨?_, ?_, ?_, ?_, ?_⟩
  · cases fb with
    | ok raw => cases ft <;> simp [reqStep]
    | err canceled msg =>
      rw [reqStep]
      by_cases hcan : canceled
      · rw [if_pos hcan]
        simp
      · rw [if_neg hcan]
        by_cases hun : containsSub msg.data (unavailPattern hgt) = true
        · rw [if_pos hun]
          simp
        · rw [if_neg hun]
          simp
  · intro canceled msg hfb
    subst hfb
    rw [reqStep]
    by_cases hcan : canceled
    · rw [if_pos hcan]
    · rw [if_neg hcan]
      by_cases hun : containsSub msg.data (unavailPattern hgt) = true
      · rw [if_pos hun]
      · rw [if_neg hun]
  · intro raw hfb hft
    subst hfb
    subst hft
    exact ⟨rfl, rfl⟩
  · intro raw hfb hft
    subst hfb
    subst hft
    exact ⟨rfl, rfl⟩
  · intro raw traw hfb hft
    subst hfb
    subst hft
    rfl

/-- Witness for C7 (amended): empty transactions at a retrievable height
give exactly the block unit. -/
theorem C7_witness :
    (reqStep 1 (BlockFetch.ok "B") TxFetch.empty).units =
      [⟨1, "block", "B", CollTag.bxsCol⟩] :=
  ((C7_amended 1 (BlockFetch.ok "B") TxFetch.empty).2.2.1 "B" rfl rfl).1

/-! Claim C8. -/

/-- C8: given a log whose validation succeeds with resume height l and a
source head h, startup (initBC) fails if and only if the effective resume
height — the larger of l and the checkpoint — exceeds h; otherwise it
returns the gap with tail = effective + 1 and head = h. -/
theorem C8_gap (content : String) (cp hsrc l : Int)
    (hl : (logHeight content cp).res = Except.ok l) :
    (initBC content cp hsrc = Except.error InitErr.aheadOfSource ↔ hsrc < max l cp) ∧
    (max l cp ≤ hsrc → initBC content cp hsrc = Except.ok (max l cp + 1, hsrc)) := by
  have hm : effectiveResume l cp = max l cp := by
    rw [effectiveResume]
    split <;> omega
  have hun : initBC content cp hsrc =
      if max l cp > hsrc then Except.error InitErr.aheadOfSource
      else Except.ok (max l cp + 1, hsrc) := by
    simp only [initBC, hl, hm]
  rw [hun]
  constructor
  · by_cases hgt : max l cp > hsrc
    · rw [if_pos hgt]
      constructor
      · intro _
        omega
      · intro _
        rfl
    · rw [if_neg hgt]
      constructor
      · intro hc
        cases hc
      · intro hc
        omega
  · intro hle
    rw [if_neg (by omega)]

/-- Witness for C8 on the empty log (resume height 0), checkpoint 0 and
source head 5: the gap is (1, 5). -/
theorem C8_witness : initBC "" 0 5 = Except.ok (max 0 0 + 1, 5) :=
  (C8_gap "" 0 5 0 (by decide)).2 (by norm_num)

/-! Claim C9. -/

theorem intRange_snoc (a : Int) (n : Nat) :
    intRange a n ++ [a + n] = intRange a (n + 1) := by
  induction n generalizing a with
  | zero => simp [intRange]
  | succ m ih =>
    show (a :: intRange (a + 1) m) ++ [a + (m + 1 : Nat)] = a :: intRange (a + 1) (m + 1)
    rw [List.cons_append]
    congr 1
    have harg : a + ((m + 1 : Nat) : Int) = (a + 1) + (m : Nat) := by
      push_cast
      ring
    rw [harg, ih]

theorem intRange_chain (a : Int) (n : Nat) :
    List.Chain' (fun x y => x < y) (intRange a n) := by
  induction n generalizing a with
  | zero => simp [intRange]
  | succ m ih =>
    cases m with
    | zero => simp [intRange]
    | succ k =>
      rw [show intRange a (k + 2) = a :: (a + 1) :: intRange (a + 1 + 1) k from rfl,
        List.chain'_cons]
      refine ⟨by omega, ?_⟩
      exact ih (a + 1)

/-- C9: starting from any orchestrator state with nothing yet enqueued,
every state reachable through the enqueue/poll loop of main.go has
enqueued each height at most once, the sequence of enqueued heights is
strictly ascending, and the tail never decreases — even across re-polls
of the head. -/
theorem C9_enqueue_unique (t0 h0 : Int) (s : Orch)
    (hr : OrchReach ⟨t0, h0, []⟩ s) :
    List.Chain' (fun a b => a < b) s.sent ∧ (∀ x : Int, s.sent.count x ≤ 1) ∧
      t0 ≤ s.tail := by
  have hinv : ∃ n : Nat, s.tail = t0 + n ∧ s.sent = intRange t0 n := by
    induction hr with
    | refl => exact ⟨0, by simp, rfl⟩
    | @tail mid fin hsteps hstep ih =>
      obtain ⟨n, htail, hsent⟩ := ih
      cases hstep with
      | enqueue hle =>
        refine ⟨n + 1, ?_, ?_⟩
        · show mid.tail + 1 = t0 + ((n + 1 : Nat) : Int)
          rw [htail]
          push_cast
          ring
        · show mid.sent ++ [mid.tail] = intRange t0 (n + 1)
          rw [hsent, htail, intRange_snoc]
      | poll newHead hgt => exact ⟨n, htail, hsent⟩
  obtain ⟨n, htail, hsent⟩ := hinv
  refine ⟨?_, ?_, by omega⟩
  · rw [hsent]
    exact intRange_chain t0 n
  · intro x
    rw [hsent, count_intRange]
    split
    · omega
    · omega

/-- Witness for C9: after two enqueue steps from tail 1, head 2, the sent
heights are [1, 2], strictly ascending with each height at most once. -/
theorem C9_witness :
    List.Chain' (fun a b => a < b) ([1, 2] : List Int) ∧
      (∀ x : Int, ([1, 2] : List Int).count x ≤ 1) ∧ (1 : Int) ≤ 3 := by
  have hstep1 : OrchStep ⟨1, 2, []⟩ ⟨2, 2, [1]⟩ :=
    OrchStep.enqueue ⟨1, 2, ([] : List Int)⟩ (by norm_num)
  have hstep2 : OrchStep ⟨2, 2, [1]⟩ ⟨3, 2, [1, 2]⟩ :=
    OrchStep.enqueue ⟨2, 2, ([1] : List Int)⟩ (by norm_num)
  have hreach : OrchReach ⟨1, 2, []⟩ ⟨3, 2, [1, 2]⟩ :=
    Relation.ReflTransGen.tail (Relation.ReflTransGen.single hstep1) hstep2
  exact C9_enqueue_unique 1 2 ⟨3, 2, [1, 2]⟩ hreach

/-! Claim C10. -/

/-- C10: every persist unit a fetch worker sends has datatype exactly
"block" or "transactions", so perWorker's fatal unrecognized-datatype
branch (modelled by perStreamFor returning none) is unreachable for units
produced by this program. -/
theorem C10_datatype (hgt : Int) (fb : BlockFetch) (ft : TxFetch) (u : Persist)
    (hu : u ∈ (reqStep hgt fb ft).units) :
    (u.datatype = "block" ∨ u.datatype = "transactions") ∧
      perStreamFor u.datatype ≠ none := by
  have hd : u.datatype = "block" ∨ u.datatype = "transactions" := by
    cases fb with
    | ok raw =>
      cases ft with
      | ok traw =>
        rcases List.mem_cons.mp hu with h | h
        · left
          rw [h]
        · rcases List.mem_cons.mp h with h | h
          · right
            rw [h]
          · cases h
      | empty =>
        rcases List.mem_cons.mp hu with h | h
        · left
          rw [h]
        · cases h
      | err =>
        rcases List.mem_cons.mp hu with h | h
        · left
          rw [h]
        · cases h
    | err canceled msg =>
      rw [reqStep] at hu
      by_cases hcan : canceled
      · rw [if_pos hcan] at hu
        cases hu
      · rw [if_neg hcan] at hu
        by_cases hun : containsSub msg.data (unavailPattern hgt) = true
        · rw [if_pos hun] at hu
          cases hu
        · rw [if_neg hun] at hu
          cases hu
  refine ⟨hd, ?_⟩
  rcases hd with h | h
  · rw [h]
    decide
  · rw [h]
    decide

/-- Witness for C10 at a concrete unit produced for height 2. -/
theorem C10_witness :
    ((⟨2, "block", "B", CollTag.bxsCol⟩ : Persist).datatype = "block" ∨
      (⟨2, "block", "B", CollTag.bxsCol⟩ : Persist).datatype = "transactions") ∧
      perStreamFor (⟨2, "block", "B", CollTag.bxsCol⟩ : Persist).datatype ≠ none :=
  C10_datatype 2 (BlockFetch.ok "B") (TxFetch.ok "T") ⟨2, "block", "B", CollTag.bxsCol⟩
    (by decide)

end CosmosScraper
